import Mathlib

/-!
Verification development for the table-recovery parser of
`src/pipeline_profile_app_5j.py` (`parse_markdown_table`).

The Python function is shallowly embedded below:

* `stripEmph` / `stripEmphasis` model `re.sub(r"\*\*(.*?)\*\*", r"\1", ocr_text)`
  (leftmost match, lazy inner wildcard, `.` does not match a line feed);
* `splitLinesList` / `splitlinesPy` model `str.splitlines` (line-break
  characters handled: LF, CR, CRLF, VT, FF, FS, GS, RS, NEL, LS, PS);
* `tokenizeLine` models `[cell.strip() for cell in line.split("|") if cell.strip()]`;
* `scanStep` / `classifyScan` model the classification loop, including the
  inert `is_table` flag;
* `buildTable` models the DataFrame stage.  pandas raises on data rows wider
  than the header list (`ValueError` in the `pd.DataFrame` constructor), on a
  zero-column frame (`IndexError` at `df.iloc[:, 0]`) and on duplicated
  column names (`TypeError` from `pd.to_numeric` applied to a `DataFrame`);
  those paths are embedded as `Except.error`;
* `parseNumeric` models `pd.to_numeric(..., errors="coerce")` on a cell
  string: standard decimal / scientific literals are parsed into `ℚ`,
  everything else (including the non-finite literals, which `ℚ` cannot
  represent) degrades to the missing marker.
-/

/-- Characters stripped by Python `str.strip()` (ASCII whitespace set). -/
def isPySpace (c : Char) : Bool :=
  c = ' ' || c = '\t' || c = '\n' || c = '\r' || c = '\x0b' || c = '\x0c'

/-- Characters at which Python `str.splitlines` breaks a line. -/
def isLineBreak (c : Char) : Bool :=
  c = '\n' || c = '\r' || c = '\x0b' || c = '\x0c' || c = '\x1c' ||
  c = '\x1d' || c = '\x1e' || c = '\x85' || c = '\u2028' || c = '\u2029'

/-- Strip leading and trailing whitespace from a character list. -/
def stripChars (l : List Char) : List Char :=
  ((l.dropWhile isPySpace).reverse.dropWhile isPySpace).reverse

/-- Model of Python `str.strip()`. -/
def pyStrip (s : String) : String :=
  String.mk (stripChars s.data)

/-- Split a character list on a delimiter character, keeping empty pieces,
exactly like Python `str.split(d)` for a one-character separator. -/
def splitOnChar (d : Char) : List Char → List (List Char)
  | [] => [[]]
  | c :: rest =>
    match splitOnChar d rest with
    | [] => [[c]]
    | h :: t => if c = d then [] :: h :: t else (c :: h) :: t

/-- Model of `line.split("|")`. -/
def splitPipe (s : String) : List String :=
  (splitOnChar '|' s.data).map String.mk

/-- Decide whether `pat` occurs as a contiguous substring of `l`. -/
def containsPat (pat : List Char) : List Char → Bool
  | [] => pat.isEmpty
  | c :: rest => pat.isPrefixOf (c :: rest) || containsPat pat rest

/-- Model of `"|" in line`. -/
def hasPipe (l : List Char) : Bool := l.contains '|'

/-- Model of `"---" in line`. -/
def hasDashes (l : List Char) : Bool := containsPat ['-', '-', '-'] l

/-- Model of `.str.contains("EXISTING LEVELS", case=False)` on one cell. -/
def sentinelHit (s : String) : Bool :=
  containsPat "EXISTING LEVELS".data (s.data.map Char.toUpper)

/-- Split off the first line of a character list: returns the line (without
its terminator) and the remainder after the terminator, treating CRLF as one
terminator, as Python `str.splitlines` does. -/
def breakLine : List Char → List Char × List Char
  | [] => ([], [])
  | [c] => if isLineBreak c then ([], []) else ([c], [])
  | c :: d :: rest =>
    if c = '\r' && d = '\n' then ([], rest)
    else if isLineBreak c then ([], d :: rest)
    else
      let p := breakLine (d :: rest)
      (c :: p.1, p.2)

/-- Fuel-indexed splitter (structurally recursive so that concrete inputs
reduce inside the kernel); with fuel at least the input length it computes
Python `str.splitlines`. -/
def splitLinesFuel : Nat → List Char → List (List Char)
  | _, [] => []
  | 0, l => [l]
  | fuel + 1, c :: rest =>
    let p := breakLine (c :: rest)
    p.1 :: splitLinesFuel fuel p.2

/-- Model of Python `str.splitlines` over a character list. -/
def splitLinesList (l : List Char) : List (List Char) :=
  splitLinesFuel l.length l

/-- Model of `cleaned_text.splitlines()`. -/
def splitlinesPy (s : String) : List String :=
  (splitLinesList s.data).map String.mk

/-- Locate the lazy closing `**` of an emphasis match: scanning forward, fail
at a line feed (the regex wildcard `.` does not match `'\n'`) and succeed at
the earliest pair of consecutive asterisks, returning the inner text and the
remainder after the closing pair. -/
def findClose : List Char → Option (List Char × List Char)
  | [] => none
  | [_] => none
  | c :: d :: rest =>
    if c = '\n' then none
    else if c = '*' && d = '*' then some ([], rest)
    else (findClose (d :: rest)).map (fun p => (c :: p.1, p.2))

/-- Model of `re.sub(r"\*\*(.*?)\*\*", r"\1", text)` over a character list:
scan left to right; at a `**` opener, find the lazy closer on the same line;
when found, emit the inner text and resume after the closer; when not found,
the opener position does not match and scanning resumes one character later. -/
def stripEmphFuel : Nat → List Char → List Char
  | _, [] => []
  | _, [c] => [c]
  | 0, l => l
  | fuel + 1, c :: d :: rest =>
    if c = '*' && d = '*' then
      match findClose rest with
      | some p => p.1 ++ stripEmphFuel fuel p.2
      | none => c :: stripEmphFuel fuel (d :: rest)
    else c :: stripEmphFuel fuel (d :: rest)

/-- Model of the substitution over a character list (see module docstring). -/
def stripEmph (l : List Char) : List Char :=
  stripEmphFuel l.length l

/-- Model of the `cleaned_text = re.sub(...)` step on strings. -/
def stripEmphasis (s : String) : String :=
  String.mk (stripEmph s.data)

/-- Digit-list reader: consumes leading decimal digits, returning the value
accumulated so far, the number of digits consumed, and the rest. -/
def readDigits : Nat → Nat → List Char → Nat × Nat × List Char
  | acc, n, c :: rest =>
    if c.isDigit then readDigits (acc * 10 + (c.toNat - '0'.toNat)) (n + 1) rest
    else (acc, n, c :: rest)
  | acc, n, [] => (acc, n, [])

/-- Optional sign reader. -/
def readSign : List Char → Int × List Char
  | '+' :: r => (1, r)
  | '-' :: r => (-1, r)
  | l => (1, l)

/-- Apply a trailing exponent part (after the `e`/`E`) to the mantissa
`mantNum / mantDen`; `none` when the exponent digits are missing or trailing
garbage remains. -/
def applyExp (mantNum : Int) (mantDen : Nat) (r : List Char) : Option ℚ :=
  let e1 := readSign r
  let e2 := readDigits 0 0 e1.2
  if e2.2.1 = 0 ∨ e2.2.2 ≠ [] then none
  else if e1.1 = 1 then some (mkRat (mantNum * ((10 ^ e2.1 : Nat) : Int)) mantDen)
  else some (mkRat mantNum (mantDen * 10 ^ e2.1))

/-- Model of `pd.to_numeric(..., errors="coerce")` applied to one cell string:
parse a standard decimal or scientific numeric literal, `none` on failure. -/
def parseNumeric (s : String) : Option ℚ :=
  let p1 := readSign s.data
  let p2 := readDigits 0 0 p1.2
  let p3 : Nat × Nat × List Char :=
    match p2.2.2 with
    | '.' :: r => readDigits 0 0 r
    | _ => (0, 0, p2.2.2)
  if p2.2.1 = 0 ∧ p3.2.1 = 0 then none
  else
    let mantNum : Int := p1.1 * ((p2.1 * 10 ^ p3.2.1 + p3.1 : Nat) : Int)
    let mantDen : Nat := 10 ^ p3.2.1
    match p3.2.2 with
    | [] => some (mkRat mantNum mantDen)
    | 'e' :: r => applyExp mantNum mantDen r
    | 'E' :: r => applyExp mantNum mantDen r
    | _ => none

deriving instance DecidableEq for Except

/-- A cell of the final table: a raw string (first, label column), a parsed
number, or the explicit missing marker (`NaN` after failed coercion). -/
inductive CellValue where
  | str (s : String)
  | num (q : ℚ)
  | missing
deriving DecidableEq, Repr

/-- Model of `pd.to_numeric(x, errors="coerce")` on one cell value: a string
is parsed (missing on failure), a number is returned unchanged, `NaN` stays
`NaN`. -/
def coerceCell : CellValue → CellValue
  | .str s => match parseNumeric s with
    | some q => .num q
    | none => .missing
  | .num q => .num q
  | .missing => .missing

/-- Model of the coercion loop `for col in df.columns[1:]`: every column
except the first is coerced. -/
def coerceRow : List CellValue → List CellValue
  | [] => []
  | c :: rest => c :: rest.map coerceCell

/-- Model of `[cell.strip() for cell in line.split("|") if cell.strip()]`. -/
def tokenizeLine (line : String) : List String :=
  ((splitPipe line).map pyStrip).filter (fun c => c ≠ "")

/-- Model of `"|" in line and "---" in line`. -/
def isSepLine (line : String) : Bool :=
  hasPipe line.data && hasDashes line.data

/-- One iteration of the classification loop: state is `(table_data, is_table)`.
A separator line is skipped but latches the flag; a pipe line is tokenized and
appended (even when the token list is empty); other lines are ignored. -/
def scanStep (st : List (List String) × Bool) (line : String) :
    List (List String) × Bool :=
  if isSepLine line then (st.1, true)
  else if hasPipe line.data then (st.1 ++ [tokenizeLine line], st.2)
  else st

/-- Model of the whole classification loop over the split lines. -/
def classifyScan (lines : List String) : List (List String) × Bool :=
  List.foldl scanStep ([], false) lines

/-- The `table_data` list collected by the loop for a given raw input. -/
def tableDataOf (t : String) : List (List String) :=
  (classifyScan (splitlinesPy (stripEmphasis t))).1

/-- Model of `row + [""] * (max_columns - len(row))` (pads short rows only;
in Python a negative multiplier yields an empty list). -/
def padRow (maxColumns : Nat) (row : List String) : List String :=
  row ++ List.replicate (maxColumns - row.length) ""

/-- Sentinel test on the first cell of a row of strings, as performed by
`df.iloc[:, 0].str.contains("EXISTING LEVELS", case=False, na=False)`. -/
def rowSentinel : List String → Bool
  | [] => false
  | c :: _ => sentinelHit c

/-- The structured table produced on the non-raising paths: ordered headers
and ordered rows (each row aligned positionally with the headers). -/
structure StructuredTable where
  headers : List String
  rows : List (List CellValue)
deriving DecidableEq, Repr

/-- Model of the DataFrame stage of `parse_markdown_table`, from the collected
`table_data` to the returned frame.  The three `error` branches embed the
places where pandas raises: `pd.DataFrame(data, columns=headers)` raises
`ValueError` when some data row is wider than the header list;
`df.iloc[:, 0]` raises `IndexError` on a zero-column frame; and
`pd.to_numeric(df[col], ...)` raises `TypeError` when `col` is a duplicated
column name (it then selects a sub-DataFrame, not a Series). -/
def buildTable : List (List String) → Except String StructuredTable
  | [] => .ok ⟨[], []⟩
  | headers0 :: data =>
    let headers := headers0.map pyStrip
    let maxColumns := headers.length
    let padded := data.map (padRow maxColumns)
    if padded.any (fun r => maxColumns < r.length) then
      .error "ValueError: mismatched number of columns passed to DataFrame"
    else if maxColumns = 0 then
      .error "IndexError: single positional indexer is out-of-bounds"
    else if headers.Nodup then
      let kept := padded.filter (fun r => !(rowSentinel r))
      .ok ⟨headers, kept.map (fun r => coerceRow (r.map CellValue.str))⟩
    else
      .error "TypeError: arg must be a list, tuple, 1-d array, or Series"

/-- Model of `parse_markdown_table` (src/pipeline_profile_app_5j.py:50-98). -/
def parse_markdown_table (ocr_text : String) : Except String StructuredTable :=
  buildTable (tableDataOf ocr_text)

/-- Join lines with a line feed between consecutive lines. -/
def joinNL : List (List Char) → List Char
  | [] => []
  | [l] => l
  | l :: l2 :: rest => l ++ '\n' :: joinNL (l2 :: rest)

/-- Drop a single trailing empty line (the only discrepancy between
splitting a `'\n'`-join and the original line list). -/
def dropTrailEmpty (ls : List (List Char)) : List (List Char) :=
  if ls.getLast? = some [] then ls.dropLast else ls

/-- Modelled from the spec (claim C6): the same input with every line that
contains both a pipe and `---` deleted, remaining lines joined by `'\n'`. -/
def removeSeparatorLines (t : String) : String :=
  String.mk (joinNL (((splitlinesPy t).filter (fun l => !isSepLine l)).map String.data))

/-- Shape of one cell as the spec states it: the first (label) column keeps a
string, every other column holds a parsed number or the missing marker. -/
def cellShape (i : Nat) (c : CellValue) : Prop :=
  if i = 0 then ∃ s, c = CellValue.str s
  else c = CellValue.missing ∨ ∃ q, c = CellValue.num q

/-- The padded body rows of the pipeline, before sentinel filtering and
numeric coercion. -/
def paddedRowsOf (t : String) : List (List String) :=
  match tableDataOf t with
  | [] => []
  | h0 :: data => data.map (padRow (h0.map pyStrip).length)

/-- Sentinel test on the first cell of a row of the final table. -/
def firstCellSentinel : List CellValue → Bool
  | CellValue.str s :: _ => sentinelHit s
  | _ => false

/-- Whether a character list contains two adjacent asterisks (a `**` marker). -/
def hasPair : List Char → Bool
  | c :: d :: rest => (c = '*' && d = '*') || hasPair (d :: rest)
  | _ => false

/-- A sequence of emphasis occurrences: each segment is plain text followed
by `**inner**`, with a trailing plain tail.  This expresses the spec's
"every occurrence of wrapper markup of the form `**text**`". -/
def assembleEmph : List (List Char × List Char) → List Char → List Char
  | [], t => t
  | s :: rest, t => s.1 ++ '*' :: '*' :: (s.2 ++ '*' :: '*' :: assembleEmph rest t)

/-- The same text with every `**inner**` occurrence replaced by `inner`. -/
def stripExpected : List (List Char × List Char) → List Char → List Char
  | [], t => t
  | s :: rest, t => s.1 ++ (s.2 ++ stripExpected rest t)

/-- Well-formedness of one occurrence: the plain text before it contains no
`**` and does not end in `*` (so it cannot merge with the opener), and the
inner text contains no `**`, no line feed, and does not end in `*` (so the
lazy closer is exactly the marked one). -/
def segWF (s : List Char × List Char) : Prop :=
  hasPair s.1 = false ∧ s.1.getLast? ≠ some '*' ∧
  hasPair s.2 = false ∧ '\n' ∉ s.2 ∧ s.2.getLast? ≠ some '*'

instance (s : List Char × List Char) : Decidable (segWF s) := by
  unfold segWF
  infer_instance

theorem breakLine_snd_le (l : List Char) : (breakLine l).2.length ≤ l.length := by
  induction l with
  | nil => simp [breakLine]
  | cons c rest ih =>
    rcases rest with _ | ⟨d, rest⟩
    · simp only [breakLine]
      split <;> simp
    · simp only [breakLine]
      split
      · simp
        omega
      · split
        · simp
        · simpa using Nat.le_succ_of_le ih

theorem breakLine_snd_lt (c : Char) (rest : List Char) :
    (breakLine (c :: rest)).2.length < (c :: rest).length := by
  rcases rest with _ | ⟨d, rest⟩
  · simp only [breakLine]
    split <;> simp
  · simp only [breakLine]
    split
    · simp
      omega
    · split
      · simp
      · simpa using Nat.lt_succ_of_le (breakLine_snd_le (d :: rest))

theorem splitLinesFuel_congr (f1 : Nat) :
    ∀ f2 l, l.length ≤ f1 → l.length ≤ f2 →
      splitLinesFuel f1 l = splitLinesFuel f2 l := by
  induction f1 with
  | zero =>
    intro f2 l h1 _
    have : l = [] := List.eq_nil_of_length_eq_zero (Nat.le_zero.mp h1)
    subst this
    cases f2 <;> rfl
  | succ f1 ih =>
    intro f2 l h1 h2
    rcases l with _ | ⟨c, rest⟩
    · cases f2 <;> rfl
    · rcases f2 with _ | f2
      · simp at h2
      · simp only [splitLinesFuel]
        have hlt := breakLine_snd_lt c rest
        simp only [List.length_cons] at hlt h1 h2
        exact congrArg _ (ih f2 _ (by omega) (by omega))

/-- The defining recursion of `splitLinesList`: peel off one line at a time. -/
theorem splitLinesList_cons (c : Char) (rest : List Char) :
    splitLinesList (c :: rest) =
      (breakLine (c :: rest)).1 :: splitLinesList (breakLine (c :: rest)).2 := by
  unfold splitLinesList
  have hlt := breakLine_snd_lt c rest
  simp only [List.length_cons] at hlt ⊢
  simp only [splitLinesFuel]
  exact congrArg _ (splitLinesFuel_congr _ _ _ (by omega) (by omega))

theorem findClose_shrink (l : List Char) :
    ∀ p, findClose l = some p → p.2.length < l.length := by
  induction l with
  | nil => intro p h; simp [findClose] at h
  | cons c rest ih =>
    intro p h
    rcases rest with _ | ⟨d, rest⟩
    · simp [findClose] at h
    · simp only [findClose] at h
      split at h
      · simp at h
      · split at h
        · obtain rfl : p = ([], rest) := (Option.some.inj h).symm
          simp
          omega
        · rcases h' : findClose (d :: rest) with _ | q
          · rw [h'] at h; simp at h
          · rw [h'] at h
            obtain rfl : p = (c :: q.1, q.2) := by
              simpa using (Option.some.inj (by simpa using h)).symm
            simpa using Nat.lt_succ_of_lt (ih q h')

theorem stripEmphFuel_congr (f1 : Nat) :
    ∀ f2 l, l.length ≤ f1 + 1 → l.length ≤ f2 + 1 →
      stripEmphFuel f1 l = stripEmphFuel f2 l := by
  induction f1 with
  | zero =>
    intro f2 l h1 _
    rcases l with _ | ⟨c, _ | ⟨d, rest⟩⟩
    · cases f2 <;> rfl
    · cases f2 <;> rfl
    · simp at h1
  | succ f1 ih =>
    intro f2 l h1 h2
    rcases l with _ | ⟨c, _ | ⟨d, rest⟩⟩
    · cases f2 <;> rfl
    · cases f2 <;> rfl
    · rcases f2 with _ | f2
      · simp at h2
      · simp only [stripEmphFuel]
        split
        · rcases hfc : findClose rest with _ | p
          · refine congrArg _ (ih f2 _ ?_ ?_) <;> simp at h1 h2 ⊢ <;> omega
          · have hlt := findClose_shrink rest p hfc
            refine congrArg _ (ih f2 _ ?_ ?_) <;> simp at h1 h2 ⊢ <;> omega
        · refine congrArg _ (ih f2 _ ?_ ?_) <;> simp at h1 h2 ⊢ <;> omega

theorem stripEmph_nil : stripEmph [] = [] := rfl

theorem stripEmph_single (c : Char) : stripEmph [c] = [c] := rfl

/-- The defining recursion of `stripEmph`: at a `**` opener, emit the lazily
matched inner text and resume after the closer; with no closer on the line,
the opener position fails and scanning resumes one character later. -/
theorem stripEmph_cons2 (c d : Char) (rest : List Char) :
    stripEmph (c :: d :: rest) =
      if c = '*' && d = '*' then
        match findClose rest with
        | some p => p.1 ++ stripEmph p.2
        | none => c :: stripEmph (d :: rest)
      else c :: stripEmph (d :: rest) := by
  show stripEmphFuel (rest.length + 1 + 1) (c :: d :: rest) = _
  simp only [stripEmphFuel]
  split
  · rcases hfc : findClose rest with _ | p
    · exact congrArg _ (stripEmphFuel_congr _ _ _ (by simp) (by simp))
    · have hlt := findClose_shrink rest p hfc
      exact congrArg _ (stripEmphFuel_congr _ _ _ (by omega) (by omega))
  · exact congrArg _ (stripEmphFuel_congr _ _ _ (by simp) (by simp))

theorem padRow_length (m : Nat) (r : List String) :
    (padRow m r).length = r.length + (m - r.length) := by
  simp [padRow]

theorem padRow_length_of_le (m : Nat) (r : List String) (h : r.length ≤ m) :
    (padRow m r).length = m := by
  rw [padRow_length]; omega

theorem coerceRow_length (l : List CellValue) : (coerceRow l).length = l.length := by
  cases l <;> simp [coerceRow]

theorem coerceCell_idem (v : CellValue) : coerceCell (coerceCell v) = coerceCell v := by
  cases v with
  | str s =>
    rcases h : parseNumeric s with _ | q <;> simp [coerceCell, h]
  | num q => simp [coerceCell]
  | missing => simp [coerceCell]

theorem coerceRow_idem (l : List CellValue) : coerceRow (coerceRow l) = coerceRow l := by
  cases l with
  | nil => rfl
  | cons c rest =>
    simp [coerceRow, Function.comp, coerceCell_idem]

theorem buildTable_eq_ok (headers0 : List String) (data : List (List String))
    (hne : headers0.map pyStrip ≠ [])
    (hnd : (headers0.map pyStrip).Nodup)
    (hlen : ∀ r ∈ data, r.length ≤ headers0.length) :
    buildTable (headers0 :: data) =
      .ok ⟨headers0.map pyStrip,
        (((data.map (padRow (headers0.map pyStrip).length)).filter
          (fun r => !(rowSentinel r))).map
          (fun r => coerceRow (r.map CellValue.str)))⟩ := by
  have hm : (headers0.map pyStrip).length = headers0.length := by simp
  have hany : (data.map (padRow (headers0.map pyStrip).length)).any
      (fun r => (headers0.map pyStrip).length < r.length) = false := by
    rw [List.any_eq_false]
    intro x hx
    rcases List.mem_map.mp hx with ⟨r, hr, rfl⟩
    have := hlen r hr
    rw [padRow_length_of_le]
    · simp
    · omega
  have hmz : ¬ (headers0.map pyStrip).length = 0 := by
    intro h0
    exact hne (List.eq_nil_of_length_eq_zero h0)
  simp only [buildTable, hany, Bool.false_eq_true, if_false, hmz, if_pos hnd]

theorem parse_ok_inv (t : String) (T : StructuredTable)
    (h : parse_markdown_table t = .ok T) :
    (tableDataOf t = [] ∧ T = ⟨[], []⟩) ∨
    (∃ h0 data, tableDataOf t = h0 :: data ∧
      T.headers = h0.map pyStrip ∧
      T.rows = (((data.map (padRow (h0.map pyStrip).length)).filter
        (fun r => !(rowSentinel r))).map
        (fun r => coerceRow (r.map CellValue.str)))) := by
  unfold parse_markdown_table at h
  rcases htd : tableDataOf t with _ | ⟨h0, data⟩
  · rw [htd] at h
    simp only [buildTable] at h
    exact Or.inl ⟨rfl, (Except.ok.inj h).symm⟩
  · rw [htd] at h
    simp only [buildTable] at h
    split at h
    · exact absurd h (by simp)
    · split at h
      · exact absurd h (by simp)
      · split at h
        · refine Or.inr ⟨h0, data, rfl, ?_, ?_⟩
          · rw [← Except.ok.inj h]
          · rw [← Except.ok.inj h]
        · exact absurd h (by simp)

/-- C1 (counterexample): on a body row wider than the header row the code
does raise (pandas `ValueError` in the `pd.DataFrame` constructor), instead
of degrading to a partial result as the claim states. -/
theorem c1_counterexample :
    (parse_markdown_table "|a|b|\n|1|2|3|").toOption = none := by rfl

/-- C1 (amended): `parse_markdown_table` returns a `StructuredTable` and
never raises provided that, in the collected `table_data`, the header row
tokenizes to at least one cell, the stripped header names are pairwise
distinct, and no body row is wider than the header row.  (Outside these
conditions pandas raises: `ValueError` for a wider body row, `IndexError`
for a zero-cell header, `TypeError` for duplicated header names.) -/
theorem c1_no_raise (t : String)
    (h : ∀ hd ∈ (tableDataOf t).head?,
      hd.map pyStrip ≠ [] ∧ (hd.map pyStrip).Nodup ∧
      ∀ r ∈ (tableDataOf t).tail, r.length ≤ hd.length) :
    ∃ T, parse_markdown_table t = .ok T := by
  unfold parse_markdown_table
  rcases htd : tableDataOf t with _ | ⟨h0, data⟩
  · exact ⟨⟨[], []⟩, rfl⟩
  · obtain ⟨h1, h2, h3⟩ := h h0 (by rw [htd]; rfl)
    rw [htd] at h3
    exact ⟨_, buildTable_eq_ok h0 data h1 h2 h3⟩

/-- C1 witness: the well-formedness hypothesis holds on the spec's end-to-end
example and the parse succeeds there. -/
theorem c1_no_raise_witness :
    ∃ T, parse_markdown_table
      "| Chainage | Depth |\n|---|---|\n| 0 | 1.2 |\n| 10 | abc |" = .ok T :=
  c1_no_raise "| Chainage | Depth |\n|---|---|\n| 0 | 1.2 |\n| 10 | abc |"
    (by decide)

theorem coerceCell_str_shape (s : String) :
    coerceCell (CellValue.str s) = CellValue.missing ∨
    ∃ q, coerceCell (CellValue.str s) = CellValue.num q := by
  rcases h : parseNumeric s with _ | q
  · exact Or.inl (by simp [coerceCell, h])
  · exact Or.inr ⟨q, by simp [coerceCell, h]⟩

/-- C2 (confirmed): in every row of a returned table, the first column is a
raw string and every later column is a parsed number or the missing marker,
never an unparsed string. -/
theorem c2_cell_shapes (t : String) (T : StructuredTable)
    (h : parse_markdown_table t = .ok T) :
    ∀ r ∈ T.rows, ∀ i, ∀ hi : i < r.length, cellShape i (r.get ⟨i, hi⟩) := by
  rcases parse_ok_inv t T h with ⟨_, rfl⟩ | ⟨h0, data, _, _, hrows⟩
  · intro r hr; simp at hr
  · intro r hr i hi
    rw [hrows] at hr
    rcases List.mem_map.mp hr with ⟨r', _, rfl⟩
    rcases r' with _ | ⟨c, rest⟩
    · simp [coerceRow] at hi
    · simp only [List.map_cons, coerceRow] at hi ⊢
      rcases i with _ | j
      · exact ⟨c, rfl⟩
      · simp only [cellShape, Nat.succ_ne_zero, if_false]
        rw [List.get_eq_getElem]
        simp only [List.getElem_cons_succ, List.getElem_map]
        exact coerceCell_str_shape _

/-- C2 witness: instantiation at a concrete parse with one data row. -/
theorem c2_cell_shapes_witness :
    cellShape 1 ([CellValue.str "x", CellValue.num (mkRat 1 1)].get ⟨1, by decide⟩) :=
  c2_cell_shapes "|L|V|\n|x|1|" ⟨["L", "V"], [[CellValue.str "x", CellValue.num (mkRat 1 1)]]⟩
    (by decide) [CellValue.str "x", CellValue.num (mkRat 1 1)] (by simp) 1 (by decide)

/-- C3 (confirmed): the returned rows are exactly the padded body rows whose
first column does not (case-insensitively) contain "EXISTING LEVELS", in
their original order and contiguously re-indexed (a Lean list has no gaps),
each then numerically coerced; consequently no returned row's first cell
contains the sentinel. -/
theorem c3_sentinel_removal (t : String) (T : StructuredTable)
    (h : parse_markdown_table t = .ok T) :
    T.rows = ((paddedRowsOf t).filter (fun r => !(rowSentinel r))).map
      (fun r => coerceRow (r.map CellValue.str)) ∧
    ∀ r ∈ T.rows, firstCellSentinel r = false := by
  have hrows : T.rows = ((paddedRowsOf t).filter (fun r => !(rowSentinel r))).map
      (fun r => coerceRow (r.map CellValue.str)) := by
    rcases parse_ok_inv t T h with ⟨htd, rfl⟩ | ⟨h0, data, htd, _, hrows⟩
    · simp [paddedRowsOf, htd]
    · rw [hrows, paddedRowsOf, htd]
  refine ⟨hrows, ?_⟩
  intro r hr
  rw [hrows] at hr
  rcases List.mem_map.mp hr with ⟨r', hr', rfl⟩
  have hs := (List.mem_filter.mp hr').2
  rcases r' with _ | ⟨c, rest⟩
  · rfl
  · simpa [coerceRow, firstCellSentinel, rowSentinel] using hs

/-- C3 witness: instantiation at an input containing a sentinel row. -/
theorem c3_sentinel_removal_witness :
    (⟨["a", "b"], [[CellValue.str "x", CellValue.num (mkRat 1 1)]]⟩ :
        StructuredTable).rows =
      ((paddedRowsOf "|a|b|\n|EXISTING LEVELS|9|\n|x|1|").filter
        (fun r => !(rowSentinel r))).map
        (fun r => coerceRow (r.map CellValue.str)) ∧
    ∀ r ∈ (⟨["a", "b"], [[CellValue.str "x", CellValue.num (mkRat 1 1)]]⟩ :
        StructuredTable).rows, firstCellSentinel r = false :=
  c3_sentinel_removal "|a|b|\n|EXISTING LEVELS|9|\n|x|1|"
    ⟨["a", "b"], [[CellValue.str "x", CellValue.num (mkRat 1 1)]]⟩ (by decide)

theorem coerceRow_get_pos (l : List CellValue) (j : Nat) (hj1 : 1 ≤ j)
    (hj : j < (coerceRow l).length) (hj' : j < l.length) :
    (coerceRow l).get ⟨j, hj⟩ = coerceCell (l.get ⟨j, hj'⟩) := by
  rcases l with _ | ⟨c, rest⟩
  · simp at hj'
  · rcases j with _ | j
    · omega
    · simp only [coerceRow]
      rw [List.get_eq_getElem, List.get_eq_getElem]
      simp only [List.getElem_cons_succ, List.getElem_map]

theorem parseNumeric_empty : parseNumeric "" = none := rfl

/-- C4 (confirmed, padding law): for a header of length `h` and a body row of
`k < h` cells, the padded row has exactly `h` cells, its first `k` cells are
the original cells in order, the remaining `h - k` are the empty string, and
after numeric coercion every padded cell in a non-first column is the missing
marker. -/
theorem c4_padding_law (cells : List String) (h k : Nat)
    (hk : cells.length = k) (hlt : k < h) :
    (padRow h cells).length = h ∧
    (padRow h cells).take k = cells ∧
    (padRow h cells).drop k = List.replicate (h - k) "" ∧
    ∀ j, k ≤ j → 1 ≤ j →
      ∀ hj : j < (coerceRow ((padRow h cells).map CellValue.str)).length,
        (coerceRow ((padRow h cells).map CellValue.str)).get ⟨j, hj⟩ =
          CellValue.missing := by
  subst hk
  refine ⟨by rw [padRow_length_of_le] <;> omega, ?_, ?_, ?_⟩
  · simp [padRow]
  · simp [padRow]
  · intro j hjk hj1 hj
    have hlen : (padRow h cells).length = h := by
      rw [padRow_length_of_le] <;> omega
    have hj2 : j < ((padRow h cells).map CellValue.str).length := by
      rw [List.length_map, hlen]
      rw [coerceRow_length, List.length_map, hlen] at hj
      exact hj
    rw [coerceRow_get_pos _ j hj1 hj hj2]
    have hpad : ((padRow h cells).map CellValue.str).get ⟨j, hj2⟩ =
        CellValue.str "" := by
      rw [List.get_eq_getElem, List.getElem_map]
      congr 1
      unfold padRow
      rw [List.getElem_append_right hjk]
      exact List.getElem_replicate _ _
    rw [hpad]
    show (match parseNumeric "" with
      | some q => CellValue.num q
      | none => CellValue.missing) = CellValue.missing
    rw [parseNumeric_empty]

/-- C4 witness: instantiation at a one-cell row padded to width three. -/
theorem c4_padding_law_witness :
    (padRow 3 ["a"]).length = 3 ∧
    (padRow 3 ["a"]).take 1 = ["a"] ∧
    (padRow 3 ["a"]).drop 1 = List.replicate 2 "" ∧
    ∀ j, 1 ≤ j → 1 ≤ j →
      ∀ hj : j < (coerceRow ((padRow 3 ["a"]).map CellValue.str)).length,
        (coerceRow ((padRow 3 ["a"]).map CellValue.str)).get ⟨j, hj⟩ =
          CellValue.missing :=
  c4_padding_law ["a"] 3 1 rfl (by decide)

/-- C9 (confirmed, coercion idempotence): re-running the per-column numeric
coercion on any row of a returned table changes nothing; in particular a
successfully coerced numeric cell coerces to the same number again. -/
theorem c9_coercion_idempotent (t : String) (T : StructuredTable)
    (h : parse_markdown_table t = .ok T) :
    ∀ r ∈ T.rows, coerceRow r = r := by
  rcases parse_ok_inv t T h with ⟨_, rfl⟩ | ⟨h0, data, _, _, hrows⟩
  · intro r hr; simp at hr
  · intro r hr
    rw [hrows] at hr
    rcases List.mem_map.mp hr with ⟨r', _, rfl⟩
    exact coerceRow_idem _

/-- C9 witness: instantiation at a concrete parse with a numeric cell. -/
theorem c9_coercion_idempotent_witness :
    coerceRow [CellValue.str "x", CellValue.num (mkRat 1 1)] =
      [CellValue.str "x", CellValue.num (mkRat 1 1)] :=
  c9_coercion_idempotent "|L|V|\n|x|1|"
    ⟨["L", "V"], [[CellValue.str "x", CellValue.num (mkRat 1 1)]]⟩ (by decide)
    [CellValue.str "x", CellValue.num (mkRat 1 1)] (by simp)

/-- C7 (confirmed): a non-separator pipe line is tokenized into the non-empty
whitespace-trimmed pieces between pipe delimiters, in order (empty and
whitespace-only pieces — including those produced by leading and trailing
delimiters — are dropped, not kept as empty cells), and the resulting cell
sequence is appended to `table_data` unconditionally, even when it is empty. -/
theorem c7_tokenization (line : String)
    (h1 : hasPipe line.data = true) (h2 : hasDashes line.data = false) :
    tokenizeLine line =
      ((splitPipe line).map pyStrip).filter (fun c => c ≠ "") ∧
    (∀ c ∈ tokenizeLine line, c ≠ "" ∧ ∃ raw ∈ splitPipe line, c = pyStrip raw) ∧
    ∀ td b, scanStep (td, b) line = (td ++ [tokenizeLine line], b) := by
  refine ⟨rfl, ?_, ?_⟩
  · intro c hc
    have hmem := List.mem_filter.mp hc
    rcases List.mem_map.mp hmem.1 with ⟨raw, hraw, rfl⟩
    exact ⟨by simpa using hmem.2, raw, hraw, rfl⟩
  · intro td b
    unfold scanStep isSepLine
    rw [h1, h2]
    simp

/-- C7 witness: instantiation at a pipes-and-whitespace-only line, whose empty
cell sequence is still appended as an (empty) row. -/
theorem c7_tokenization_witness :
    tokenizeLine "| |" =
      ((splitPipe "| |").map pyStrip).filter (fun c => c ≠ "") ∧
    (∀ c ∈ tokenizeLine "| |", c ≠ "" ∧ ∃ raw ∈ splitPipe "| |", c = pyStrip raw) ∧
    ∀ td b, scanStep (td, b) "| |" = (td ++ [tokenizeLine "| |"], b) :=
  c7_tokenization "| |" (by decide) (by decide)

/-- C8 (counterexample): on the input `"| |"` — exactly one data line, which
tokenizes to zero cells — the code raises (`IndexError` at `df.iloc[:, 0]` on
the zero-column frame) instead of returning a table. -/
theorem c8_counterexample :
    tableDataOf "| |" = [[]] ∧
    (parse_markdown_table "| |").toOption = none := by
  exact ⟨by decide, by decide⟩

/-- C8 (amended): an input whose scan collects exactly one data line yields a
table with that line's (re-stripped) cells as headers and no rows, provided
the header cells are non-empty and pairwise distinct (otherwise pandas raises
`IndexError` respectively `TypeError`). -/
theorem c8_header_only (t : String) (cells : List String)
    (h : tableDataOf t = [cells])
    (hne : cells.map pyStrip ≠ [])
    (hnd : (cells.map pyStrip).Nodup) :
    parse_markdown_table t = .ok ⟨cells.map pyStrip, []⟩ := by
  unfold parse_markdown_table
  rw [h, buildTable_eq_ok cells [] hne hnd (by simp)]
  simp

/-- C8 witness: one header line (plus a skipped separator line) and no body. -/
theorem c8_header_only_witness :
    parse_markdown_table "|a|b|\n|---|" = .ok ⟨["a", "b"], []⟩ :=
  c8_header_only "|a|b|\n|---|" ["a", "b"] (by decide) (by decide) (by decide)

theorem findClose_append_nl (m : List Char) :
    ∀ l, findClose (l ++ '\n' :: m) =
      (findClose l).map (fun p => (p.1, p.2 ++ '\n' :: m)) := by
  intro l
  induction l with
  | nil =>
    rcases m with _ | ⟨x, xs⟩ <;> simp [findClose]
  | cons c rest ih =>
    rcases rest with _ | ⟨d, rest⟩
    · show findClose (c :: '\n' :: m) = _
      simp only [findClose]
      split
      · rfl
      · have : (decide (c = '*') && decide ('\n' = '*')) = false := by simp
        rw [this]
        simp only [Bool.false_eq_true, if_false]
        rcases m with _ | ⟨x, xs⟩ <;> simp [findClose]
    · show findClose (c :: d :: (rest ++ '\n' :: m)) = _
      simp only [findClose]
      split
      · rfl
      · split
        · rfl
        · rw [show d :: (rest ++ '\n' :: m) = (d :: rest) ++ '\n' :: m from rfl, ih]
          rcases findClose (d :: rest) with _ | q <;> simp

theorem stripEmph_newline_head (m : List Char) :
    stripEmph ('\n' :: m) = '\n' :: stripEmph m := by
  rcases m with _ | ⟨x, xs⟩
  · rfl
  · rw [stripEmph_cons2]
    simp

/-- C10 (amended): the emphasis substitution never matches across a line-feed
character: it distributes over `'\n'`, so text separated by `'\n'` is
processed independently on each side.  (For the other line-break characters
recognized by `str.splitlines` — e.g. `'\r'` — the wildcard does cross, see
the counterexample.) -/
theorem c10_no_match_across_newline (l m : List Char) :
    stripEmph (l ++ '\n' :: m) = stripEmph l ++ '\n' :: stripEmph m := by
  have main : ∀ n l, l.length ≤ n →
      stripEmph (l ++ '\n' :: m) = stripEmph l ++ '\n' :: stripEmph m := by
    intro n
    induction n with
    | zero =>
      intro l hl
      have : l = [] := List.eq_nil_of_length_eq_zero (Nat.le_zero.mp hl)
      subst this
      simpa using stripEmph_newline_head m
    | succ n ih =>
      intro l hl
      rcases l with _ | ⟨c, _ | ⟨d, rest⟩⟩
      · simpa using stripEmph_newline_head m
      · show stripEmph (c :: '\n' :: m) = stripEmph [c] ++ '\n' :: stripEmph m
        rw [stripEmph_cons2]
        have : (decide (c = '*') && decide ('\n' = '*')) = false := by simp
        rw [this]
        simp only [Bool.false_eq_true, if_false]
        rw [stripEmph_newline_head m, stripEmph_single]
        rfl
      · show stripEmph (c :: d :: (rest ++ '\n' :: m)) = _
        rw [stripEmph_cons2, stripEmph_cons2]
        simp only [List.length_cons] at hl
        split
        · rw [findClose_append_nl m rest]
          rcases hfc : findClose rest with _ | p
          · simp only [Option.map_none]
            rw [show d :: (rest ++ '\n' :: m) = (d :: rest) ++ '\n' :: m from rfl]
            rw [ih (d :: rest) (by simp; omega)]
            rfl
          · have hmap : Option.map (fun p => (p.1, p.2 ++ '\n' :: m)) (some p) =
                some (p.1, p.2 ++ '\n' :: m) := rfl
            rw [hmap]
            show p.1 ++ stripEmph (p.2 ++ '\n' :: m) =
              p.1 ++ stripEmph p.2 ++ '\n' :: stripEmph m
            have hp2 := findClose_shrink rest p hfc
            rw [ih p.2 (by omega)]
            simp [List.append_assoc]
        · rw [show d :: (rest ++ '\n' :: m) = (d :: rest) ++ '\n' :: m from rfl]
          rw [ih (d :: rest) (by simp; omega)]
          rfl
  exact main l.length l (Nat.le_refl _)

/-- C10 (counterexample): around a carriage return — which `str.splitlines`
does treat as a line break, so the opener and its nearest closer lie on
different lines — the substitution does match and the markers are removed. -/
theorem c10_counterexample :
    stripEmphasis "**a\rb**" = "a\rb" ∧
    splitlinesPy "**a\rb**" = ["**a", "b**"] :=
  ⟨by decide, by decide⟩

theorem hasPair_tail (c : Char) (l : List Char)
    (h : hasPair (c :: l) = false) : hasPair l = false := by
  rcases l with _ | ⟨d, rest⟩
  · rfl
  · simp only [hasPair, Bool.or_eq_false_iff] at h
    exact h.2

theorem stripEmph_append_nopair (rest : List Char) :
    ∀ l, hasPair (l ++ rest.take 1) = false →
      stripEmph (l ++ rest) = l ++ stripEmph rest := by
  intro l
  induction l with
  | nil => simp
  | cons c cs ih =>
    intro h
    rcases cs with _ | ⟨d, cs'⟩
    · rcases rest with _ | ⟨r, rs⟩
      · rfl
      · show stripEmph (c :: r :: rs) = c :: stripEmph (r :: rs)
        rw [stripEmph_cons2]
        have hcr : (decide (c = '*') && decide (r = '*')) = false := by
          simp only [List.nil_append, List.take, hasPair, Bool.or_eq_false_iff] at h
          exact h.1
        rw [hcr]
        simp
    · show stripEmph (c :: d :: (cs' ++ rest)) = c :: d :: cs' ++ stripEmph rest
      rw [stripEmph_cons2]
      have hcd : (decide (c = '*') && decide (d = '*')) = false := by
        simp only [List.cons_append, hasPair, Bool.or_eq_false_iff] at h
        exact h.1
      rw [hcd]
      simp only [Bool.false_eq_true, if_false]
      rw [show d :: (cs' ++ rest) = (d :: cs') ++ rest from rfl,
        ih (hasPair_tail c _ h)]
      rfl

theorem findClose_marked (rest : List Char) :
    ∀ inner, hasPair inner = false → '\n' ∉ inner →
      inner.getLast? ≠ some '*' →
      findClose (inner ++ '*' :: '*' :: rest) = some (inner, rest) := by
  intro inner
  induction inner with
  | nil =>
    intro _ _ _
    show findClose ('*' :: '*' :: rest) = some ([], rest)
    simp [findClose]
  | cons c cs ih =>
    intro hp hn hl
    have hcn : c ≠ '\n' := fun hcn => hn (by rw [hcn]; simp)
    rcases cs with _ | ⟨d, cs'⟩
    · have hc : c ≠ '*' := fun hc => hl (by rw [hc]; rfl)
      show findClose (c :: '*' :: '*' :: rest) = some ([c], rest)
      simp [findClose, hc, hcn]
    · show findClose (c :: d :: (cs' ++ '*' :: '*' :: rest)) = some (c :: d :: cs', rest)
      simp only [findClose]
      rw [if_neg (by simp [hcn])]
      have hcd : (decide (c = '*') && decide (d = '*')) = false := by
        simp only [hasPair, Bool.or_eq_false_iff] at hp
        exact hp.1
      rw [hcd]
      simp only [Bool.false_eq_true, if_false]
      rw [show d :: (cs' ++ '*' :: '*' :: rest) = (d :: cs') ++ '*' :: '*' :: rest from rfl]
      rw [ih (hasPair_tail c _ hp) (fun hm => hn (List.mem_cons_of_mem c hm))
        (by rwa [List.getLast?_cons_cons] at hl)]
      rfl

theorem stripEmph_marked (inner rest : List Char)
    (hp : hasPair inner = false) (hn : '\n' ∉ inner)
    (hl : inner.getLast? ≠ some '*') :
    stripEmph ('*' :: '*' :: (inner ++ '*' :: '*' :: rest)) =
      inner ++ stripEmph rest := by
  rw [stripEmph_cons2]
  simp only [decide_True, Bool.and_self, if_true]
  rw [findClose_marked rest inner hp hn hl]

theorem hasPair_append_star :
    ∀ l, hasPair l = false → l.getLast? ≠ some '*' →
      hasPair (l ++ ['*']) = false := by
  intro l
  induction l with
  | nil => intro _ _; rfl
  | cons c cs ih =>
    intro hp hl
    rcases cs with _ | ⟨d, cs'⟩
    · have hc : c ≠ '*' := fun hc => hl (by rw [hc]; rfl)
      simp [hasPair, hc]
    · show hasPair (c :: d :: (cs' ++ ['*'])) = false
      simp only [hasPair, Bool.or_eq_false_iff] at hp ⊢
      refine ⟨hp.1, ?_⟩
      have := ih hp.2 (by rwa [List.getLast?_cons_cons] at hl)
      simpa using this

/-- C5 (confirmed): the emphasis substitution replaces every well-formed
occurrence of `**inner**` in the raw text by `inner` — all occurrences, in
one pass over the whole text, however many occur and wherever they sit
(`stripEmphasis` is applied to the entire raw text before line splitting:
see the definition of `parse_markdown_table` via `tableDataOf`). -/
theorem c5_emphasis_stripping (segs : List (List Char × List Char))
    (t : List Char) (hseg : ∀ s ∈ segs, segWF s) (ht : hasPair t = false) :
    stripEmph (assembleEmph segs t) = stripExpected segs t := by
  induction segs with
  | nil =>
    show stripEmph t = t
    have := stripEmph_append_nopair [] t (by simpa using ht)
    simpa [stripEmph_nil] using this
  | cons s rest ih =>
    obtain ⟨h1, h2, h3, h4, h5⟩ := hseg s (List.mem_cons_self s rest)
    show stripEmph (s.1 ++ '*' :: '*' :: (s.2 ++ '*' :: '*' :: assembleEmph rest t)) =
      s.1 ++ (s.2 ++ stripExpected rest t)
    rw [stripEmph_append_nopair _ s.1
      (by simpa using hasPair_append_star s.1 h1 h2)]
    rw [stripEmph_marked s.2 (assembleEmph rest t) h3 h4 h5]
    rw [ih (fun x hx => hseg x (List.mem_cons_of_mem s hx))]

/-- C5 witness: two occurrences in one line,
`"a **b** c **d**!"` becomes `"a b c d!"`. -/
theorem c5_emphasis_stripping_witness :
    stripEmph (assembleEmph
      [(['a', ' '], ['b']), ([' ', 'c', ' '], ['d'])] ['!']) =
    stripExpected [(['a', ' '], ['b']), ([' ', 'c', ' '], ['d'])] ['!'] :=
  c5_emphasis_stripping [(['a', ' '], ['b']), ([' ', 'c', ' '], ['d'])] ['!']
    (by decide) (by decide)

theorem stripEmph_id_of_noStar :
    ∀ l, (∀ c ∈ l, c ≠ '*') → stripEmph l = l := by
  intro l
  induction l with
  | nil => intro _; rfl
  | cons c cs ih =>
    intro h
    rcases cs with _ | ⟨d, cs'⟩
    · rfl
    · rw [stripEmph_cons2]
      have hc : (decide (c = '*') && decide (d = '*')) = false := by
        have := h c (by simp)
        simp [this]
      rw [hc]
      simp only [Bool.false_eq_true, if_false]
      rw [ih (fun x hx => h x (List.mem_cons_of_mem c hx))]

theorem breakLine_nl (m : List Char) : breakLine ('\n' :: m) = ([], m) := by
  rcases m with _ | ⟨y, ys⟩
  · simp [breakLine, isLineBreak]
  · have hne : ('\n' : Char) ≠ '\r' := by decide
    simp [breakLine, hne, isLineBreak]

theorem breakLine_fst_mem :
    ∀ l, ∀ c ∈ (breakLine l).1, c ∈ l := by
  intro l
  induction l with
  | nil => intro c hc; simp [breakLine] at hc
  | cons x xs ih =>
    intro c hc
    rcases xs with _ | ⟨y, ys⟩
    · cases hb : isLineBreak x
      · simp [breakLine, hb] at hc
        simp [hc]
      · simp [breakLine, hb] at hc
    · cases hb : isLineBreak x
      · have hxr : (decide (x = '\r') && decide (y = '\n')) = false := by
          have : x ≠ '\r' := by
            intro h2
            rw [h2] at hb
            simp [isLineBreak] at hb
          simp [this]
        simp only [breakLine, hxr, hb, Bool.false_eq_true, if_false] at hc
        simp only [List.mem_cons] at hc
        rcases hc with rfl | hc
        · simp
        · exact List.mem_cons_of_mem _ (ih c hc)
      · simp only [breakLine] at hc
        split at hc
        · simp at hc
        · simp [hb] at hc

theorem breakLine_snd_mem :
    ∀ l, ∀ c ∈ (breakLine l).2, c ∈ l := by
  intro l
  induction l with
  | nil => intro c hc; simp [breakLine] at hc
  | cons x xs ih =>
    intro c hc
    rcases xs with _ | ⟨y, ys⟩
    · cases hb : isLineBreak x <;> simp [breakLine, hb] at hc
    · simp only [breakLine] at hc
      split at hc
      · exact List.mem_cons_of_mem _ (List.mem_cons_of_mem _ hc)
      · split at hc
        · exact List.mem_cons_of_mem _ hc
        · exact List.mem_cons_of_mem _ (ih c hc)

theorem breakLine_fst_nobreak :
    ∀ l, ∀ c ∈ (breakLine l).1, isLineBreak c = false := by
  intro l
  induction l with
  | nil => intro c hc; simp [breakLine] at hc
  | cons x xs ih =>
    intro c hc
    rcases xs with _ | ⟨y, ys⟩
    · cases hb : isLineBreak x
      · simp [breakLine, hb] at hc
        rw [hc]
        exact hb
      · simp [breakLine, hb] at hc
    · cases hb : isLineBreak x
      · have hxr : (decide (x = '\r') && decide (y = '\n')) = false := by
          have : x ≠ '\r' := by
            intro h2
            rw [h2] at hb
            simp [isLineBreak] at hb
          simp [this]
        simp only [breakLine, hxr, hb, Bool.false_eq_true, if_false] at hc
        simp only [List.mem_cons] at hc
        rcases hc with rfl | hc
        · exact hb
        · exact ih c hc
      · simp only [breakLine] at hc
        split at hc
        · simp at hc
        · simp [hb] at hc

theorem breakLine_all_nobreak :
    ∀ l, (∀ c ∈ l, isLineBreak c = false) → breakLine l = (l, []) := by
  intro l
  induction l with
  | nil => intro _; rfl
  | cons x xs ih =>
    intro h
    have hx : isLineBreak x = false := h x (by simp)
    rcases xs with _ | ⟨y, ys⟩
    · simp [breakLine, hx]
    · have hxr : (decide (x = '\r') && decide (y = '\n')) = false := by
        have : x ≠ '\r' := by
          intro h2
          rw [h2] at hx
          simp [isLineBreak] at hx
        simp [this]
      simp only [breakLine, hxr, Bool.false_eq_true, if_false, hx]
      rw [ih (fun c hc => h c (List.mem_cons_of_mem x hc))]

theorem breakLine_append_nl (m : List Char) :
    ∀ l, (∀ c ∈ l, isLineBreak c = false) →
      breakLine (l ++ '\n' :: m) = (l, m) := by
  intro l
  induction l with
  | nil => intro _; simpa using breakLine_nl m
  | cons x xs ih =>
    intro h
    have hx : isLineBreak x = false := h x (by simp)
    have hxr : x ≠ '\r' := by
      intro h2
      rw [h2] at hx
      simp [isLineBreak] at hx
    rcases xs with _ | ⟨y, ys⟩
    · show breakLine (x :: '\n' :: m) = ([x], m)
      simp only [breakLine, hx, Bool.false_eq_true, if_false, breakLine_nl]
      simp [hxr]
    · show breakLine (x :: y :: (ys ++ '\n' :: m)) = (x :: y :: ys, m)
      have hxr2 : (decide (x = '\r') && decide (y = '\n')) = false := by simp [hxr]
      simp only [breakLine, hxr2, Bool.false_eq_true, if_false, hx]
      rw [show y :: (ys ++ '\n' :: m) = (y :: ys) ++ '\n' :: m from rfl]
      rw [ih (fun c hc => h c (List.mem_cons_of_mem x hc))]

theorem splitLinesList_nil : splitLinesList [] = [] := rfl

theorem splitLinesList_ne_nil (l : List Char) (h : l ≠ []) :
    splitLinesList l = (breakLine l).1 :: splitLinesList (breakLine l).2 := by
  rcases l with _ | ⟨c, rest⟩
  · exact absurd rfl h
  · exact splitLinesList_cons c rest

theorem splitLines_mem :
    ∀ l, ∀ line ∈ splitLinesList l, ∀ c ∈ line, c ∈ l := by
  have main : ∀ n l, l.length ≤ n →
      ∀ line ∈ splitLinesList l, ∀ c ∈ line, c ∈ l := by
    intro n
    induction n with
    | zero =>
      intro l hl line hline
      have : l = [] := List.eq_nil_of_length_eq_zero (Nat.le_zero.mp hl)
      subst this
      simp [splitLinesList_nil] at hline
    | succ n ih =>
      intro l hl line hline c hc
      rcases l with _ | ⟨x, xs⟩
      · simp [splitLinesList_nil] at hline
      · rw [splitLinesList_cons] at hline
        rcases List.mem_cons.mp hline with rfl | hline
        · exact breakLine_fst_mem (x :: xs) c hc
        · have hlt : (breakLine (x :: xs)).2.length ≤ n := by
            have := breakLine_snd_lt x xs
            simp only [List.length_cons] at this hl
            omega
          exact breakLine_snd_mem (x :: xs) c (ih _ hlt line hline c hc)
  intro l
  exact main l.length l (Nat.le_refl _)

theorem splitLines_nobreak :
    ∀ l, ∀ line ∈ splitLinesList l, ∀ c ∈ line, isLineBreak c = false := by
  have main : ∀ n l, l.length ≤ n →
      ∀ line ∈ splitLinesList l, ∀ c ∈ line, isLineBreak c = false := by
    intro n
    induction n with
    | zero =>
      intro l hl line hline
      have : l = [] := List.eq_nil_of_length_eq_zero (Nat.le_zero.mp hl)
      subst this
      simp [splitLinesList_nil] at hline
    | succ n ih =>
      intro l hl line hline c hc
      rcases l with _ | ⟨x, xs⟩
      · simp [splitLinesList_nil] at hline
      · rw [splitLinesList_cons] at hline
        rcases List.mem_cons.mp hline with rfl | hline
        · exact breakLine_fst_nobreak (x :: xs) c hc
        · have hlt : (breakLine (x :: xs)).2.length ≤ n := by
            have := breakLine_snd_lt x xs
            simp only [List.length_cons] at this hl
            omega
          exact ih _ hlt line hline c hc
  intro l
  exact main l.length l (Nat.le_refl _)

theorem joinNL_mem :
    ∀ ls, ∀ c ∈ joinNL ls, (∃ l ∈ ls, c ∈ l) ∨ c = '\n' := by
  intro ls
  induction ls with
  | nil => intro c hc; simp [joinNL] at hc
  | cons l rest ih =>
    intro c hc
    rcases rest with _ | ⟨l2, rest'⟩
    · exact Or.inl ⟨l, by simp, hc⟩
    · simp only [joinNL, List.mem_append, List.mem_cons] at hc
      rcases hc with hc | rfl | hc
      · exact Or.inl ⟨l, by simp, hc⟩
      · exact Or.inr rfl
      · rcases ih c hc with ⟨l', hl', hcl⟩ | rfl
        · exact Or.inl ⟨l', List.mem_cons_of_mem l hl', hcl⟩
        · exact Or.inr rfl

theorem splitLines_joinNL :
    ∀ ls, (∀ line ∈ ls, ∀ c ∈ line, isLineBreak c = false) →
      splitLinesList (joinNL ls) = dropTrailEmpty ls := by
  intro ls
  induction ls with
  | nil => intro _; rfl
  | cons l rest ih =>
    intro h
    rcases rest with _ | ⟨l2, rest'⟩
    · show splitLinesList (joinNL [l]) = dropTrailEmpty [l]
      rcases hl : l with _ | ⟨x, xs⟩
      · rfl
      · rw [show joinNL [x :: xs] = x :: xs from rfl]
        rw [splitLinesList_cons]
        have hb := breakLine_all_nobreak (x :: xs)
          (by rw [← hl]; exact h l (by simp))
        rw [hb]
        show (x :: xs) :: splitLinesList [] = dropTrailEmpty [x :: xs]
        rw [splitLinesList_nil]
        simp [dropTrailEmpty]
    · show splitLinesList (l ++ '\n' :: joinNL (l2 :: rest')) = _
      have hnn : l ++ '\n' :: joinNL (l2 :: rest') ≠ [] := by
        rcases l with _ | _ <;> simp
      rw [splitLinesList_ne_nil _ hnn]
      rw [breakLine_append_nl _ l (h l (by simp))]
      rw [ih (fun line hline => h line (List.mem_cons_of_mem l hline))]
      show l :: dropTrailEmpty (l2 :: rest') = dropTrailEmpty (l :: l2 :: rest')
      unfold dropTrailEmpty
      rw [List.getLast?_cons_cons]
      split
      · rw [List.dropLast_cons₂]
      · rfl

theorem scan_flag_indep (lines : List String) :
    ∀ td b b', (List.foldl scanStep (td, b) lines).1 =
      (List.foldl scanStep (td, b') lines).1 := by
  induction lines with
  | nil => intro td b b'; rfl
  | cons line rest ih =>
    intro td b b'
    simp only [List.foldl_cons]
    unfold scanStep
    cases hsep : isSepLine line
    · simp only [Bool.false_eq_true, if_false]
      cases hpipe : hasPipe line.data
      · simp only [Bool.false_eq_true, if_false]
        exact ih td b b'
      · simp only [if_true]
        exact ih _ b b'
    · simp only [if_true]

theorem scan_filter_sep (lines : List String) :
    ∀ td b, (List.foldl scanStep (td, b)
        (List.filter (fun l => !isSepLine l) lines)).1 =
      (List.foldl scanStep (td, b) lines).1 := by
  induction lines with
  | nil => intro td b; rfl
  | cons line rest ih =>
    intro td b
    cases hsep : isSepLine line
    · have hkeep : List.filter (fun l => !isSepLine l) (line :: rest) =
          line :: List.filter (fun l => !isSepLine l) rest := by
        simp [List.filter_cons, hsep]
      rw [hkeep]
      simp only [List.foldl_cons]
      rcases hst : scanStep (td, b) line with ⟨td2, b2⟩
      exact ih td2 b2
    · have hdrop : List.filter (fun l => !isSepLine l) (line :: rest) =
          List.filter (fun l => !isSepLine l) rest := by
        simp [List.filter_cons, hsep]
      rw [hdrop]
      simp only [List.foldl_cons]
      have hs : scanStep (td, b) line = (td, true) := by
        unfold scanStep
        rw [hsep]
        simp
      rw [hs, ih td b]
      exact scan_flag_indep rest td b true

theorem scanStep_empty_line (st : List (List String) × Bool) :
    scanStep st "" = st := rfl

theorem dropTrailEmpty_cons2 (a b : List Char) (ls : List (List Char)) :
    dropTrailEmpty (a :: b :: ls) = a :: dropTrailEmpty (b :: ls) := by
  unfold dropTrailEmpty
  rw [List.getLast?_cons_cons]
  split
  · rw [List.dropLast_cons₂]
  · rfl

theorem scan_dropTrailEmpty (G : List String) :
    ∀ td b, (List.foldl scanStep (td, b)
        ((dropTrailEmpty (G.map String.data)).map String.mk)).1 =
      (List.foldl scanStep (td, b) G).1 := by
  induction G with
  | nil => intro td b; rfl
  | cons g rest ih =>
    intro td b
    rcases rest with _ | ⟨g2, rest'⟩
    · show (List.foldl scanStep (td, b)
          ((dropTrailEmpty [g.data]).map String.mk)).1 = _
      unfold dropTrailEmpty
      split
      · rename_i hlast
        have hg : g.data = [] := by simpa using hlast
        have hg2 : g = "" := by
          have : String.mk g.data = String.mk [] := by rw [hg]
          simpa using this
        subst hg2
        rfl
      · rfl
    · rw [show (g :: g2 :: rest').map String.data =
          g.data :: g2.data :: rest'.map String.data from rfl]
      rw [dropTrailEmpty_cons2]
      rw [show g2.data :: rest'.map String.data =
          (g2 :: rest').map String.data from rfl]
      simp only [List.map_cons, List.foldl_cons]
      show (List.foldl scanStep (scanStep (td, b) g)
          ((dropTrailEmpty ((g2 :: rest').map String.data)).map String.mk)).1 =
        (List.foldl scanStep (scanStep (td, b) g) (g2 :: rest')).1
      rcases hst : scanStep (td, b) g with ⟨td2, b2⟩
      exact ih td2 b2

/-- C6 (amended): when the raw text contains no asterisk (so that the global
emphasis substitution — which runs before line splitting and whose wildcard
can cross non-`'\n'` line breaks and interact with separator lines — is the
identity), `parse_markdown_table` gives the same result on the input as on
the input with every separator line deleted; moreover the `is_table` flag
latched by separator lines never affects the collected `table_data`. -/
theorem c6_separator_equiv (t : String) (h : ∀ c ∈ t.data, c ≠ '*') :
    parse_markdown_table t = parse_markdown_table (removeSeparatorLines t) ∧
    ∀ (lines : List String) (td : List (List String)) (b b' : Bool),
      (List.foldl scanStep (td, b) lines).1 =
        (List.foldl scanStep (td, b') lines).1 := by
  refine ⟨?_, fun lines td b b' => scan_flag_indep lines td b b'⟩
  have hstrip : stripEmphasis t = t := by
    show String.mk (stripEmph t.data) = t
    rw [stripEmph_id_of_noStar t.data h]
  have hLchar : ∀ l ∈ splitlinesPy t, ∀ c ∈ l.data, c ∈ t.data := by
    intro l hl c hc
    unfold splitlinesPy at hl
    rcases List.mem_map.mp hl with ⟨lc, hlc, rfl⟩
    exact splitLines_mem t.data lc hlc c (by simpa using hc)
  have hLnobreak : ∀ l ∈ splitlinesPy t, ∀ c ∈ l.data, isLineBreak c = false := by
    intro l hl c hc
    unfold splitlinesPy at hl
    rcases List.mem_map.mp hl with ⟨lc, hlc, rfl⟩
    exact splitLines_nobreak t.data lc hlc c (by simpa using hc)
  have hnostar2 : ∀ c ∈ (removeSeparatorLines t).data, c ≠ '*' := by
    intro c hc
    unfold removeSeparatorLines at hc
    rcases joinNL_mem _ c (by simpa using hc) with ⟨lc, hlc, hclc⟩ | rfl
    · rcases List.mem_map.mp hlc with ⟨l, hlF, rfl⟩
      exact h c (hLchar l (List.mem_of_mem_filter hlF) c hclc)
    · decide
  have hstrip2 : stripEmphasis (removeSeparatorLines t) = removeSeparatorLines t := by
    show String.mk (stripEmph (removeSeparatorLines t).data) = removeSeparatorLines t
    rw [stripEmph_id_of_noStar _ hnostar2]
  have hFnobreak : ∀ lc ∈ ((splitlinesPy t).filter
      (fun l => !isSepLine l)).map String.data, ∀ c ∈ lc, isLineBreak c = false := by
    intro lc hlc c hc
    rcases List.mem_map.mp hlc with ⟨l, hlF, rfl⟩
    exact hLnobreak l (List.mem_of_mem_filter hlF) c hc
  have hsplit2 : splitlinesPy (removeSeparatorLines t) =
      (dropTrailEmpty (((splitlinesPy t).filter
        (fun l => !isSepLine l)).map String.data)).map String.mk := by
    unfold splitlinesPy removeSeparatorLines
    rw [show (String.mk (joinNL (((splitlinesPy t).filter
        (fun l => !isSepLine l)).map String.data))).data =
      joinNL (((splitlinesPy t).filter
        (fun l => !isSepLine l)).map String.data) from rfl]
    rw [splitLines_joinNL _ hFnobreak]
    rfl
  show buildTable (tableDataOf t) = buildTable (tableDataOf (removeSeparatorLines t))
  have htd : tableDataOf (removeSeparatorLines t) = tableDataOf t := by
    unfold tableDataOf
    rw [hstrip2, hstrip, hsplit2]
    unfold classifyScan
    rw [scan_dropTrailEmpty ((splitlinesPy t).filter (fun l => !isSepLine l)) [] false]
    exact scan_filter_sep (splitlinesPy t) [] false
  rw [htd]

/-- C6 (counterexample): with a carriage-return line break and a separator
line carrying a `**` closer, the emphasis substitution interacts with the
separator line, so deleting separator lines from the raw input changes the
parse (here it even changes a header name). -/
theorem c6_counterexample :
    parse_markdown_table "|h**1|h2\r|---**|\n|a|b" ≠
      parse_markdown_table
        (removeSeparatorLines "|h**1|h2\r|---**|\n|a|b") := by
  decide

/-- C6 witness: instantiation at an asterisk-free input with a separator. -/
theorem c6_separator_equiv_witness :
    parse_markdown_table "x\n|a|b|\n|---|---|\n|1|2|" =
      parse_markdown_table
        (removeSeparatorLines "x\n|a|b|\n|---|---|\n|1|2|") ∧
    ∀ (lines : List String) (td : List (List String)) (b b' : Bool),
      (List.foldl scanStep (td, b) lines).1 =
        (List.foldl scanStep (td, b') lines).1 :=
  c6_separator_equiv "x\n|a|b|\n|---|---|\n|1|2|" (by decide)
